import Mathlib

/-!
# Working-copy local history store: a shallow embedding

This file embeds the local version history store specified in `spec.md`
(VS Code's `WorkingCopyHistoryService`) and proves the testable properties
stated there against the embedding.

The service implementation itself is not part of this repository's sources;
only its test suite is (the `WorkingCopyHistoryService` suite). All
definitions below are therefore modelled from the spec, with the behaviours
that the in-repository test suite pins down taken as authoritative where
they speak (in particular, the test `getEntries - configured max entries
respected` shows that `getEntries` caps its result at the configured
maximum number of entries at query time, without deleting anything).

All claims are per-resource, so the model tracks the state of a single
tracked resource: its on-disk directory (snapshot files plus the optional
`entries.json` metadata index) and its in-memory `ResourceHistory`
(loaded flag, ordered entry sequence / pending buffer, dirty flag).

Modelling conventions:
* entry ids are `Nat`, drawn from a monotone counter (`nextId`) that is
  part of the durable state; this models the implementation's
  collision-free snapshot file naming;
* an entry's `location` is identified with its id: the snapshot file of
  entry `e` is the unique `Snapshot` with `id = e.id` in the directory;
* file-system metadata time (`mtime`) is a separate monotone counter
  (`fsClock`), distinct from the caller-supplied entry timestamps, exactly
  as wall-clock file mtimes are distinct from the logical timestamps the
  callers supply;
* the cancellation token and the supported-scheme check are booleans
  sampled at admission time, and the configured `maxFileEntries` value is
  passed to each operation that reads it (reading it fresh on every call).
-/

/-- An entry descriptor as persisted in the metadata index file
(`entries.json`): id, timestamp and optional source label.
Modelled from the spec: "an ordered list of `{id, timestamp, source}`
triples". -/
structure Descriptor where
  id : Nat
  timestamp : Nat
  source : Option String
deriving DecidableEq

/-- A snapshot file on disk: its name (the entry id), its immutable
content, and its file-system metadata time. -/
structure Snapshot where
  id : Nat
  content : String
  mtime : Nat
deriving DecidableEq

/-- The state of the metadata index file of one resource directory:
absent, present but unparseable, or a parsed descriptor list.
Modelled from the spec: "load(resourceDir) -> ordered list of descriptors
| NotFound | Corrupt". -/
inductive IndexFile where
  | missing
  | corrupt
  | ok (descs : List Descriptor)
deriving DecidableEq

/-- One resource's on-disk directory: snapshot files in creation order
(creation order coincides with `mtime` order for states produced by the
operations) and the index file. -/
structure DiskState where
  snapshots : List Snapshot
  index : IndexFile
deriving DecidableEq

/-- An in-memory history entry: id, caller-supplied timestamp, optional
source label. Its snapshot location is identified by `id`. -/
structure HistoryEntry where
  id : Nat
  timestamp : Nat
  source : Option String
deriving DecidableEq

/-- The in-memory `ResourceHistory` model: the `Unloaded → Loaded` state
tag, the ordered entry sequence (which acts as the pending buffer while
unloaded), and the index dirty flag. -/
structure MemState where
  loaded : Bool
  entries : List HistoryEntry
  dirty : Bool
deriving DecidableEq

/-- The complete per-resource state: disk directory, in-memory model and
the two monotone counters (fresh entry ids, file-system clock). -/
structure ResourceState where
  disk : DiskState
  mem : MemState
  nextId : Nat
  fsClock : Nat
deriving DecidableEq

/-- Change notifications the service emits. -/
inductive Event where
  | added (e : HistoryEntry)
  | changed (e : HistoryEntry)
  | removed (e : HistoryEntry)
deriving DecidableEq

/-- The initial state of a never-tracked resource: empty directory, no
index file, unloaded in-memory model. -/
def initState : ResourceState :=
  { disk := { snapshots := [], index := IndexFile.missing }
    mem := { loaded := false, entries := [], dirty := false }
    nextId := 0
    fsClock := 0 }

/-- Insert an arriving entry into an ordered sequence, after all entries
of smaller or equal timestamp (ties broken by insertion order, the newer
entry last). Modelled from the spec: "inserts it in timestamp order",
"stable sort on ties (insertion order preserved)". -/
def insertArriving (e : HistoryEntry) : List HistoryEntry → List HistoryEntry
  | [] => [e]
  | x :: xs =>
      if x.timestamp ≤ e.timestamp then x :: insertArriving e xs
      else e :: x :: xs

/-- Insert an entry into an ordered sequence before all entries of larger
or equal timestamp; used by the stable reordering of disk scans, where an
element earlier in the scan precedes later ties. -/
def insertByTs (e : HistoryEntry) : List HistoryEntry → List HistoryEntry
  | [] => [e]
  | x :: xs =>
      if x.timestamp < e.timestamp then x :: insertByTs e xs
      else e :: x :: xs

/-- Stable reordering of a scanned entry list into ascending timestamp
order (elements keep their relative order on timestamp ties). -/
def sortByTs : List HistoryEntry → List HistoryEntry
  | [] => []
  | e :: rest => insertByTs e (sortByTs rest)

/-- Look up the descriptor of a given id in a parsed index. -/
def descFor (descs : List Descriptor) (id : Nat) : Option Descriptor :=
  descs.find? (fun d => d.id = id)

/-- The descriptor an entry contributes to the index file. -/
def toDesc (e : HistoryEntry) : Descriptor :=
  { id := e.id, timestamp := e.timestamp, source := e.source }

/-- Reconstruct one entry from a snapshot file during reconciliation: if
the index knows the file, take its recorded timestamp and source;
otherwise synthesize the entry from file metadata (timestamp from
`mtime`, no source label). -/
def entryOfSnapshot (descs : List Descriptor) (sn : Snapshot) : HistoryEntry :=
  match descFor descs sn.id with
  | some d => { id := sn.id, timestamp := d.timestamp, source := d.source }
  | none => { id := sn.id, timestamp := sn.mtime, source := none }

/-- The entry synthesized for a snapshot file absent from the index:
identity from the file name, timestamp from file metadata, no source. -/
def scanEntry (sn : Snapshot) : HistoryEntry :=
  { id := sn.id, timestamp := sn.mtime, source := none }

/-- Resolve the persisted entries of a resource directory.
Modelled from the spec: load the metadata index and scan the directory;
with a parsed index, every snapshot file present on disk yields an entry
(with recorded metadata when the index references it, synthesized
metadata otherwise), and index descriptors whose snapshot file is missing
are silently dropped; with a missing or corrupt index, every snapshot
file yields a synthesized entry ordered by file metadata. The result is
in ascending timestamp order. -/
def resolveFromDisk (disk : DiskState) : List HistoryEntry :=
  match disk.index with
  | IndexFile.ok descs => sortByTs (disk.snapshots.map (entryOfSnapshot descs))
  | _ => sortByTs (disk.snapshots.map scanEntry)

/-- The `Unloaded → Loaded` transition. Modelled from the spec: on first
need to read persisted state, resolve the persisted entries from disk and
merge the pending buffer into them, preserving timestamp order across the
merge; no entry appears twice even if both disk and memory reference it
(the in-memory pending version, which carries the recorded metadata,
wins over the synthesized on-disk reconstruction). -/
def ensureLoaded (s : ResourceState) : ResourceState :=
  if s.mem.loaded then s
  else
    let pending := s.mem.entries
    let diskKept := (resolveFromDisk s.disk).filter
      (fun e => pending.all (fun p => p.id ≠ e.id))
    let merged := pending.foldl (fun acc p => insertArriving p acc) diskKept
    { s with mem := { loaded := true, entries := merged, dirty := s.mem.dirty } }

/-- Result of a service-level `addEntry`: the successor state, the created
entry (or none), and the events fired. -/
structure AddResult where
  state : ResourceState
  entry : Option HistoryEntry
  events : List Event
deriving DecidableEq

/-- Service-level `addEntry`. Modelled from the spec: if the cancellation
signal is already triggered at admission, return "no entry" without
performing I/O; if the resource is unsupported for persistence, return
"no entry"; otherwise write the snapshot file, create the entry, insert
it in timestamp order, mark the index dirty and fire "entry added". -/
def addEntry (cancelled supported : Bool) (timestamp : Nat)
    (source : Option String) (content : String) (s : ResourceState) : AddResult :=
  if cancelled then ⟨s, none, []⟩
  else if !supported then ⟨s, none, []⟩
  else
    let e : HistoryEntry := { id := s.nextId, timestamp := timestamp, source := source }
    let sn : Snapshot := { id := s.nextId, content := content, mtime := s.fsClock }
    ⟨{ disk := { s.disk with snapshots := s.disk.snapshots ++ [sn] }
       mem := { s.mem with entries := insertArriving e s.mem.entries, dirty := true }
       nextId := s.nextId + 1
       fsClock := s.fsClock + 1 },
     some e, [Event.added e]⟩

/-- Service-level `updateEntry`. Modelled from the spec: in-place mutation
of the `source` field of the existing entry with the given id (id,
timestamp, location unchanged); marks the index dirty and fires "entry
changed" with that entry on success; silent no-op if the id is not
found. Resolution with disk happens first, as for any operation that
needs the persisted entries. -/
def updateEntry (id : Nat) (newSource : Option String) (s : ResourceState) :
    ResourceState × List Event :=
  let s := ensureLoaded s
  match s.mem.entries.find? (fun e => e.id = id) with
  | some e =>
      ({ s with mem := { s.mem with
           entries := s.mem.entries.map
             (fun x => if x.id = id then { x with source := newSource } else x)
           dirty := true } },
       [Event.changed { e with source := newSource }])
  | none => (s, [])

/-- Service-level `removeEntry`. Modelled from the spec: deletes the
snapshot file and removes the descriptor, returns whether an entry was
actually removed (false when the id is no longer present), and fires
"entry removed" on success. -/
def removeEntry (id : Nat) (s : ResourceState) :
    ResourceState × Bool × List Event :=
  let s := ensureLoaded s
  match s.mem.entries.find? (fun e => e.id = id) with
  | some e =>
      ({ s with
         disk := { s.disk with snapshots := s.disk.snapshots.filter (fun sn => sn.id ≠ id) }
         mem := { s.mem with
           entries := s.mem.entries.filter (fun x => x.id ≠ id)
           dirty := true } },
       true, [Event.removed e])
  | none => (s, false, [])

/-- `evictToLimit`. Modelled from the spec: ensures `Loaded`, and if the
sequence exceeds `maxEntries`, deletes the snapshot files and descriptors
of the oldest `count - maxEntries` entries, keeping the most recent
`maxEntries`. -/
def evictToLimit (maxEntries : Nat) (s : ResourceState) : ResourceState :=
  let s := ensureLoaded s
  if s.mem.entries.length ≤ maxEntries then s
  else
    let evicted := s.mem.entries.take (s.mem.entries.length - maxEntries)
    let snaps := s.disk.snapshots.filter (fun sn => evicted.all (fun e => e.id ≠ sn.id))
    { s with
      disk := { s.disk with snapshots := snaps }
      mem := { s.mem with
        entries := s.mem.entries.drop (s.mem.entries.length - maxEntries)
        dirty := true } }

/-- `flushIfDirty`. Modelled from the spec: persists the metadata index
(the descriptor list of the current entry sequence) if the dirty flag is
set; idempotent. -/
def flushIfDirty (s : ResourceState) : ResourceState :=
  if s.mem.dirty then
    { s with
      disk := { s.disk with index := IndexFile.ok (s.mem.entries.map toDesc) }
      mem := { s.mem with dirty := false } }
  else s

/-- The shutdown contribution for one resource. Modelled from the spec:
on "will shut down", evict to the maximum-entries limit read fresh from
configuration, then flush the index if dirty. -/
def shutdownResource (maxEntries : Nat) (s : ResourceState) : ResourceState :=
  flushIfDirty (evictToLimit maxEntries s)

/-- A process restart: the disk state survives, the in-memory model of a
fresh service instance starts unloaded with an empty pending buffer. The
counters survive because they model the collision-free file naming and
the file-system clock, both of which are durable. -/
def restart (s : ResourceState) : ResourceState :=
  { s with mem := { loaded := false, entries := [], dirty := false } }

/-- Cap an ordered entry sequence at the configured maximum, keeping the
newest (last) `maxEntries` entries. -/
def capAt (maxEntries : Nat) (l : List HistoryEntry) : List HistoryEntry :=
  if maxEntries < l.length then l.drop (l.length - maxEntries) else l

/-- Service-level `getEntries`: ensures `Loaded`, then returns the entry
sequence capped to the newest `maxEntries` entries when the sequence
exceeds the configured maximum (as the test "getEntries - configured max
entries respected" pins down: the cap is applied at query time from the
freshly read configuration value, and deletes nothing). -/
def getEntries (maxEntries : Nat) (s : ResourceState) :
    ResourceState × List HistoryEntry :=
  let s := ensureLoaded s
  (s, capAt maxEntries s.mem.entries)

/-- One `addEntry` request of a run: timestamp, source label, content. -/
structure AddReq where
  timestamp : Nat
  source : Option String
  content : String
deriving DecidableEq

/-- Run a sequence of successful (uncancelled, supported) `addEntry`
calls. -/
def addMany : List AddReq → ResourceState → ResourceState
  | [], s => s
  | r :: rs, s => addMany rs (addEntry false true r.timestamp r.source r.content s).state

/-- The entries a run of `addMany` creates, ids starting at `n`. -/
def builtEntries (n : Nat) : List AddReq → List HistoryEntry
  | [] => []
  | r :: rs => { id := n, timestamp := r.timestamp, source := r.source } :: builtEntries (n + 1) rs

/-- The snapshot files a run of `addMany` creates, ids starting at `n`,
mtimes starting at `c`. -/
def builtSnaps (n c : Nat) : List AddReq → List Snapshot
  | [] => []
  | r :: rs => { id := n, content := r.content, mtime := c } :: builtSnaps (n + 1) (c + 1) rs

/-- A strictly increasing list of naturals (Boolean, for executability). -/
def sortedLt : List Nat → Bool
  | [] => true
  | [_] => true
  | a :: b :: rest => decide (a < b) && sortedLt (b :: rest)

/-- A non-decreasing list of naturals (Boolean, for executability). -/
def sortedLe : List Nat → Bool
  | [] => true
  | [_] => true
  | a :: b :: rest => decide (a ≤ b) && sortedLe (b :: rest)

/-- Pairwise-distinct list of naturals (Boolean, for executability). -/
def distinct : List Nat → Bool
  | [] => true
  | a :: rest => rest.all (fun b => b ≠ a) && distinct rest

/-- The id sequence of an entry list. -/
def idsOf (l : List HistoryEntry) : List Nat := l.map (fun e => e.id)

/-- The timestamp sequence of an entry list. -/
def tsOf (l : List HistoryEntry) : List Nat := l.map (fun e => e.timestamp)

/-- The well-formedness the claims assume of a resource state: the
in-memory entry sequence is aligned file-for-file with the on-disk
snapshot files (same ids in the same order), ids are pairwise distinct,
and the sequence is in ascending timestamp order. Every state reachable
by the operations from `initState` satisfies this. -/
def wfAligned (s : ResourceState) : Bool :=
  (idsOf s.mem.entries == s.disk.snapshots.map (fun sn => sn.id)) &&
  distinct (idsOf s.mem.entries) &&
  sortedLe (tsOf s.mem.entries)

/-! ## Bridging the Boolean predicates to `Pairwise` facts -/

/-- The timestamp-ordering relation on entries. -/
def tsLe (a b : HistoryEntry) : Prop := a.timestamp ≤ b.timestamp

theorem sortedLe_iff_chain (l : List Nat) :
    sortedLe l = true ↔ List.Chain' (· ≤ ·) l := by
  induction l with
  | nil => simp [sortedLe]
  | cons a l ih =>
    cases l with
    | nil => simp [sortedLe]
    | cons b r =>
      simp only [sortedLe, Bool.and_eq_true, decide_eq_true_eq, List.chain'_cons] at *
      rw [ih]

theorem sortedLt_iff_chain (l : List Nat) :
    sortedLt l = true ↔ List.Chain' (· < ·) l := by
  induction l with
  | nil => simp [sortedLt]
  | cons a l ih =>
    cases l with
    | nil => simp [sortedLt]
    | cons b r =>
      simp only [sortedLt, Bool.and_eq_true, decide_eq_true_eq, List.chain'_cons] at *
      rw [ih]

theorem sortedLe_iff_pairwise (l : List Nat) :
    sortedLe l = true ↔ l.Pairwise (· ≤ ·) := by
  rw [sortedLe_iff_chain, List.chain'_iff_pairwise]

theorem sortedLt_iff_pairwise (l : List Nat) :
    sortedLt l = true ↔ l.Pairwise (· < ·) := by
  rw [sortedLt_iff_chain, List.chain'_iff_pairwise]

theorem sortedTs_iff_pairwise (l : List HistoryEntry) :
    sortedLe (tsOf l) = true ↔ l.Pairwise tsLe := by
  rw [sortedLe_iff_pairwise, tsOf, List.pairwise_map]; rfl

theorem sortedLt_imp_sortedLe (l : List Nat) (h : sortedLt l = true) :
    sortedLe l = true := by
  rw [sortedLe_iff_pairwise]
  exact ((sortedLt_iff_pairwise l).mp h).imp Nat.le_of_lt

theorem distinct_iff_nodup (l : List Nat) : distinct l = true ↔ l.Nodup := by
  induction l with
  | nil => simp [distinct]
  | cons a l ih =>
    simp only [distinct, Bool.and_eq_true, List.all_eq_true, decide_eq_true_eq,
      List.nodup_cons, ih]
    constructor
    · intro ⟨h1, h2⟩
      exact ⟨fun hmem => (h1 a hmem) rfl, h2⟩
    · intro ⟨h1, h2⟩
      exact ⟨fun b hb hba => h1 (hba ▸ hb), h2⟩

/-! ## The insertion operations -/

theorem insertArriving_append (e : HistoryEntry) (l : List HistoryEntry)
    (h : ∀ x ∈ l, x.timestamp ≤ e.timestamp) :
    insertArriving e l = l ++ [e] := by
  induction l with
  | nil => rfl
  | cons x xs ih =>
    simp only [insertArriving, if_pos (h x (List.mem_cons_self x xs)), List.cons_append,
      List.cons.injEq, true_and]
    exact ih (fun y hy => h y (List.mem_cons_of_mem x hy))

theorem insertArriving_perm (e : HistoryEntry) (l : List HistoryEntry) :
    (insertArriving e l).Perm (e :: l) := by
  induction l with
  | nil => exact List.Perm.refl _
  | cons x xs ih =>
    by_cases h : x.timestamp ≤ e.timestamp
    · simp only [insertArriving, if_pos h]
      exact (ih.cons x).trans (List.Perm.swap e x xs)
    · simp only [insertArriving, if_neg h]
      exact List.Perm.refl _

theorem insertArriving_pairwise (e : HistoryEntry) (l : List HistoryEntry)
    (h : l.Pairwise tsLe) : (insertArriving e l).Pairwise tsLe := by
  induction l with
  | nil => simp [insertArriving, tsLe]
  | cons x xs ih =>
    rcases List.pairwise_cons.mp h with ⟨hx, hxs⟩
    by_cases hc : x.timestamp ≤ e.timestamp
    · simp only [insertArriving, if_pos hc]
      refine List.pairwise_cons.mpr ⟨?_, ih hxs⟩
      intro y hy
      rcases List.mem_cons.mp ((insertArriving_perm e xs).mem_iff.mp hy) with h1 | h1
      · exact h1 ▸ hc
      · exact hx y h1
    · simp only [insertArriving, if_neg hc]
      refine List.pairwise_cons.mpr ⟨?_, h⟩
      intro y hy
      rcases List.mem_cons.mp hy with h1 | h1
      · exact h1 ▸ Nat.le_of_not_le hc
      · exact Nat.le_trans (Nat.le_of_not_le hc) (hx y h1)

theorem insertByTs_front (e : HistoryEntry) (l : List HistoryEntry)
    (h : ∀ x ∈ l, e.timestamp ≤ x.timestamp) :
    insertByTs e l = e :: l := by
  cases l with
  | nil => rfl
  | cons x xs =>
    simp only [insertByTs, if_neg (Nat.not_lt.mpr (h x (List.mem_cons_self x xs)))]

theorem insertByTs_perm (e : HistoryEntry) (l : List HistoryEntry) :
    (insertByTs e l).Perm (e :: l) := by
  induction l with
  | nil => exact List.Perm.refl _
  | cons x xs ih =>
    by_cases h : x.timestamp < e.timestamp
    · simp only [insertByTs, if_pos h]
      exact (ih.cons x).trans (List.Perm.swap e x xs)
    · simp only [insertByTs, if_neg h]
      exact List.Perm.refl _

theorem insertByTs_pairwise (e : HistoryEntry) (l : List HistoryEntry)
    (h : l.Pairwise tsLe) : (insertByTs e l).Pairwise tsLe := by
  induction l with
  | nil => simp [insertByTs, tsLe]
  | cons x xs ih =>
    rcases List.pairwise_cons.mp h with ⟨hx, hxs⟩
    by_cases hc : x.timestamp < e.timestamp
    · simp only [insertByTs, if_pos hc]
      refine List.pairwise_cons.mpr ⟨?_, ih hxs⟩
      intro y hy
      rcases List.mem_cons.mp ((insertByTs_perm e xs).mem_iff.mp hy) with h1 | h1
      · exact h1 ▸ Nat.le_of_lt hc
      · exact hx y h1
    · simp only [insertByTs, if_neg hc]
      refine List.pairwise_cons.mpr ⟨?_, h⟩
      intro y hy
      rcases List.mem_cons.mp hy with h1 | h1
      · exact h1 ▸ Nat.le_of_not_lt hc
      · exact Nat.le_trans (Nat.le_of_not_lt hc) (hx y h1)

/-! ## `sortByTs` -/

theorem sortByTs_perm (l : List HistoryEntry) : (sortByTs l).Perm l := by
  induction l with
  | nil => exact List.Perm.refl _
  | cons e rest ih =>
    exact (insertByTs_perm e (sortByTs rest)).trans (ih.cons e)

theorem sortByTs_pairwise (l : List HistoryEntry) : (sortByTs l).Pairwise tsLe := by
  induction l with
  | nil => simp [sortByTs]
  | cons e rest ih => exact insertByTs_pairwise e _ ih

theorem sortByTs_sorted_id (l : List HistoryEntry)
    (h : sortedLe (tsOf l) = true) : sortByTs l = l := by
  induction l with
  | nil => rfl
  | cons e rest ih =>
    have hp := (sortedTs_iff_pairwise _).mp h
    rcases List.pairwise_cons.mp hp with ⟨he, hrest⟩
    have hrest' : sortedLe (tsOf rest) = true := (sortedTs_iff_pairwise _).mpr hrest
    simp only [sortByTs, ih hrest']
    exact insertByTs_front e rest he

/-! ## Properties of the entries and snapshot files a run creates -/

theorem builtEntries_ids (n : Nat) (rs : List AddReq) :
    idsOf (builtEntries n rs) = List.range' n rs.length := by
  induction rs generalizing n with
  | nil => rfl
  | cons r rest ih =>
    simp only [builtEntries, idsOf, List.map_cons, List.length_cons, List.range'_succ]
    exact congrArg (n :: ·) (ih (n + 1))

theorem builtSnaps_ids (n c : Nat) (rs : List AddReq) :
    (builtSnaps n c rs).map (fun sn => sn.id) = List.range' n rs.length := by
  induction rs generalizing n c with
  | nil => rfl
  | cons r rest ih =>
    simp only [builtSnaps, List.map_cons, List.length_cons, List.range'_succ]
    exact congrArg (n :: ·) (ih (n + 1) (c + 1))

theorem builtSnaps_mtimes (n c : Nat) (rs : List AddReq) :
    (builtSnaps n c rs).map (fun sn => sn.mtime) = List.range' c rs.length := by
  induction rs generalizing n c with
  | nil => rfl
  | cons r rest ih =>
    simp only [builtSnaps, List.map_cons, List.length_cons, List.range'_succ]
    exact congrArg (c :: ·) (ih (n + 1) (c + 1))

theorem builtEntries_ts (n : Nat) (rs : List AddReq) :
    tsOf (builtEntries n rs) = rs.map AddReq.timestamp := by
  induction rs generalizing n with
  | nil => rfl
  | cons r rest ih =>
    simp only [builtEntries, tsOf, List.map_cons]
    exact congrArg (r.timestamp :: ·) (ih (n + 1))

theorem range'_nodup (n len : Nat) : (List.range' n len).Nodup :=
  List.nodup_range' n len 1 Nat.one_pos

theorem builtEntries_ids_nodup (n : Nat) (rs : List AddReq) :
    (idsOf (builtEntries n rs)).Nodup := by
  rw [builtEntries_ids]; exact range'_nodup n rs.length

theorem mem_range'_iff (i n len : Nat) :
    i ∈ List.range' n len ↔ n ≤ i ∧ i < n + len :=
  List.mem_range'_1

/-! ## Descriptor lookup -/

theorem descFor_toDesc_self (l : List HistoryEntry) (e : HistoryEntry)
    (hd : (idsOf l).Nodup) (he : e ∈ l) :
    descFor (l.map toDesc) e.id = some (toDesc e) := by
  induction l with
  | nil => cases he
  | cons x xs ih =>
    have hd2 : (List.map (fun e => e.id) (x :: xs)).Nodup := hd
    rw [List.map_cons, List.nodup_cons] at hd2
    rcases hd2 with ⟨hx, hxs⟩
    rcases List.mem_cons.mp he with h | h
    · subst h
      simp [descFor, List.find?, toDesc]
    · have hne : x.id ≠ e.id := by
        intro hcontra
        exact hx (hcontra ▸ List.mem_map_of_mem (fun y => y.id) h)
      simp only [descFor, List.map_cons]
      rw [List.find?_cons_of_neg]
      · exact ih hxs h
      · simp [toDesc, hne]

theorem descFor_eq_none (descs : List Descriptor) (i : Nat)
    (h : ∀ d ∈ descs, d.id ≠ i) : descFor descs i = none := by
  rw [descFor, List.find?_eq_none]
  intro d hd
  simp [h d hd]

/-- Reconciliation over files aligned one-for-one with a known entry list
recovers exactly that entry list, provided every entry's descriptor is
found in the index. -/
theorem map_entryOfSnapshot_aligned (descs : List Descriptor) :
    ∀ (snaps : List Snapshot) (entries : List HistoryEntry),
    snaps.map (fun sn => sn.id) = idsOf entries →
    (∀ e ∈ entries, descFor descs e.id = some (toDesc e)) →
    snaps.map (entryOfSnapshot descs) = entries := by
  intro snaps
  induction snaps with
  | nil =>
    intro entries h _
    cases entries with
    | nil => rfl
    | cons e es => simp [idsOf] at h
  | cons sn sns ih =>
    intro entries h hfind
    cases entries with
    | nil => simp [idsOf] at h
    | cons e es =>
      simp only [idsOf, List.map_cons, List.cons.injEq] at h
      rcases h with ⟨hid, htail⟩
      simp only [List.map_cons]
      have hh : entryOfSnapshot descs sn = e := by
        rw [entryOfSnapshot, hid, hfind e (List.mem_cons_self e es)]
        simp [toDesc]
      rw [hh, ih es htail (fun x hx => hfind x (List.mem_cons_of_mem e hx))]

/-! ## Folding the pending buffer into the resolved sequence -/

theorem foldl_insertArriving_perm (l : List HistoryEntry) :
    ∀ acc : List HistoryEntry,
    (l.foldl (fun a p => insertArriving p a) acc).Perm (acc ++ l) := by
  induction l with
  | nil => intro acc; simp
  | cons p rest ih =>
    intro acc
    have h1 := ih (insertArriving p acc)
    have h2 : (insertArriving p acc ++ rest).Perm ((p :: acc) ++ rest) :=
      (insertArriving_perm p acc).append_right rest
    have h3 : ((p :: acc) ++ rest).Perm (acc ++ p :: rest) := by
      simpa using (List.perm_middle).symm
    exact h1.trans (h2.trans h3)

theorem foldl_insertArriving_pairwise (l : List HistoryEntry) :
    ∀ acc : List HistoryEntry, acc.Pairwise tsLe →
    (l.foldl (fun a p => insertArriving p a) acc).Pairwise tsLe := by
  induction l with
  | nil => intro acc h; exact h
  | cons p rest ih =>
    intro acc h
    exact ih (insertArriving p acc) (insertArriving_pairwise p acc h)

theorem sortedLe_append_le (l : List Nat) (t : Nat) (r : List Nat)
    (h : sortedLe (l ++ t :: r) = true) : ∀ a ∈ l, a ≤ t := by
  have hp := (sortedLe_iff_pairwise _).mp h
  intro a ha
  exact (List.pairwise_append.mp hp).2.2 a ha t (List.mem_cons_self t r)

theorem foldl_insertArriving_append (l : List HistoryEntry) :
    ∀ acc : List HistoryEntry,
    sortedLe (tsOf (acc ++ l)) = true →
    l.foldl (fun a p => insertArriving p a) acc = acc ++ l := by
  induction l with
  | nil => intro acc _; simp
  | cons p rest ih =>
    intro acc h
    have hstep : insertArriving p acc = acc ++ [p] := by
      apply insertArriving_append
      intro x hx
      have := sortedLe_append_le (tsOf acc) p.timestamp (tsOf rest)
        (by simpa [tsOf] using h) x.timestamp
        (List.mem_map_of_mem (fun e => e.timestamp) hx)
      exact this
    simp only [List.foldl_cons, hstep]
    rw [ih (acc ++ [p]) (by simpa using h)]
    simp

/-! ## State facts -/

theorem ensureLoaded_disk (s : ResourceState) : (ensureLoaded s).disk = s.disk := by
  rw [ensureLoaded]
  by_cases h : s.mem.loaded <;> simp [h]

theorem ensureLoaded_counters (s : ResourceState) :
    (ensureLoaded s).nextId = s.nextId ∧ (ensureLoaded s).fsClock = s.fsClock := by
  rw [ensureLoaded]
  by_cases h : s.mem.loaded <;> simp [h]

theorem ensureLoaded_of_loaded (s : ResourceState) (h : s.mem.loaded = true) :
    ensureLoaded s = s := by
  rw [ensureLoaded, if_pos h]

theorem ensureLoaded_loaded (s : ResourceState) :
    (ensureLoaded s).mem.loaded = true := by
  rw [ensureLoaded]
  by_cases h : s.mem.loaded <;> simp [h]

/-! ## The closed form of a run of successful `addEntry` calls -/

theorem addMany_eq (rs : List AddReq) :
    ∀ s : ResourceState,
    sortedLe (tsOf s.mem.entries ++ rs.map AddReq.timestamp) = true →
    addMany rs s =
      { disk := { snapshots := s.disk.snapshots ++ builtSnaps s.nextId s.fsClock rs
                  index := s.disk.index }
        mem := { loaded := s.mem.loaded
                 entries := s.mem.entries ++ builtEntries s.nextId rs
                 dirty := s.mem.dirty || !rs.isEmpty }
        nextId := s.nextId + rs.length
        fsClock := s.fsClock + rs.length } := by
  induction rs with
  | nil =>
    intro s _
    simp [addMany, builtSnaps, builtEntries]
  | cons r rest ih =>
    intro s h
    have hins : insertArriving { id := s.nextId, timestamp := r.timestamp, source := r.source }
        s.mem.entries = s.mem.entries ++ [{ id := s.nextId, timestamp := r.timestamp, source := r.source }] := by
      apply insertArriving_append
      intro x hx
      exact sortedLe_append_le (tsOf s.mem.entries) r.timestamp (rest.map AddReq.timestamp)
        (by simpa using h) x.timestamp (List.mem_map_of_mem (fun e => e.timestamp) hx)
    have hstep : addMany (r :: rest) s = addMany rest
        { disk := { snapshots := s.disk.snapshots ++ [{ id := s.nextId, content := r.content, mtime := s.fsClock }], index := s.disk.index }
          mem := { loaded := s.mem.loaded, entries := s.mem.entries ++ [{ id := s.nextId, timestamp := r.timestamp, source := r.source }], dirty := true }
          nextId := s.nextId + 1
          fsClock := s.fsClock + 1 } := by
      simp [addMany, addEntry, hins]
    rw [hstep, ih _ (by simpa [tsOf] using h)]
    simp only [ResourceState.mk.injEq, DiskState.mk.injEq, MemState.mk.injEq,
      builtSnaps, builtEntries, List.isEmpty_cons, Bool.not_false, Bool.or_true,
      Bool.true_or, List.length_cons]
    refine ⟨⟨?_, ?_⟩, ⟨?_, ?_, ?_⟩, ?_, ?_⟩ <;> first | trivial | simp | omega

/-! ## Scan entries of built snapshot files -/

theorem scan_ids (sns : List Snapshot) :
    idsOf (sns.map scanEntry) = sns.map (fun sn => sn.id) := by
  simp [idsOf, scanEntry, List.map_map]

theorem scan_ts (sns : List Snapshot) :
    tsOf (sns.map scanEntry) = sns.map (fun sn => sn.mtime) := by
  simp [tsOf, scanEntry, List.map_map]

theorem sortedLt_range' (n len : Nat) : sortedLt (List.range' n len) = true := by
  rw [sortedLt_iff_pairwise]
  exact List.pairwise_lt_range' n len

theorem mem_idsOf_all_ne_false (l : List HistoryEntry) (i : Nat)
    (h : i ∈ idsOf l) : (l.all fun p => p.id ≠ i) = false := by
  rcases List.mem_map.mp h with ⟨p, hp, hpi⟩
  cases hall : l.all (fun p => decide (p.id ≠ i)) with
  | false => rfl
  | true =>
    exfalso
    have := List.all_eq_true.mp hall p hp
    simp only [decide_eq_true_eq] at this
    exact this hpi

/-- After a run of successful `addEntry` calls with non-decreasing
timestamps on a fresh resource, loading reconciles to exactly the run's
entries: the scanned duplicates of the pending entries are dropped and
the pending buffer (which carries the recorded metadata) survives. -/
theorem ensureLoaded_addMany_init (rs : List AddReq)
    (h : sortedLe (rs.map AddReq.timestamp) = true) :
    ensureLoaded (addMany rs initState) =
      { disk := { snapshots := builtSnaps 0 0 rs, index := IndexFile.missing }
        mem := { loaded := true, entries := builtEntries 0 rs, dirty := !rs.isEmpty }
        nextId := rs.length
        fsClock := rs.length } := by
  have hclosed := addMany_eq rs initState (by simpa [initState, tsOf] using h)
  rw [hclosed, ensureLoaded]
  simp only [initState, List.nil_append, Bool.false_or, Nat.zero_add]
  have hresolve : resolveFromDisk { snapshots := builtSnaps 0 0 rs, index := IndexFile.missing } =
      (builtSnaps 0 0 rs).map scanEntry := by
    simp only [resolveFromDisk]
    apply sortByTs_sorted_id
    rw [scan_ts, builtSnaps_mtimes]
    exact sortedLt_imp_sortedLe _ (sortedLt_range' 0 rs.length)
  have hfilter : ((builtSnaps 0 0 rs).map scanEntry).filter
      (fun e => (builtEntries 0 rs).all fun p => p.id ≠ e.id) = [] := by
    rw [List.filter_eq_nil_iff]
    intro e he
    have hid : e.id ∈ idsOf (builtEntries 0 rs) := by
      rw [builtEntries_ids]
      have : e.id ∈ idsOf ((builtSnaps 0 0 rs).map scanEntry) :=
        List.mem_map_of_mem (fun x => x.id) he
      rw [scan_ids, builtSnaps_ids] at this
      exact this
    rw [mem_idsOf_all_ne_false _ _ hid]
    simp
  have hfold : (builtEntries 0 rs).foldl (fun acc p => insertArriving p acc) [] =
      builtEntries 0 rs := by
    have := foldl_insertArriving_append (builtEntries 0 rs) []
    simp only [List.nil_append] at this
    apply this
    rw [builtEntries_ts]
    exact h
  rw [if_neg (by simp : ¬ ((false : Bool) = true)), hresolve, hfilter, hfold]

/-! ## The reload round trip -/

theorem wfAligned_parts (s : ResourceState) (hA : wfAligned s = true) :
    idsOf s.mem.entries = s.disk.snapshots.map (fun sn => sn.id) ∧
    distinct (idsOf s.mem.entries) = true ∧
    sortedLe (tsOf s.mem.entries) = true := by
  have h := hA
  rw [wfAligned, Bool.and_eq_true, Bool.and_eq_true] at h
  rcases h with ⟨⟨h1, h2⟩, h3⟩
  exact ⟨by simpa using h1, h2, h3⟩

/-- Flushing a state whose in-memory sequence is aligned with disk, then
restarting and querying, returns exactly the in-memory sequence (capped):
the index written at flush time records every entry's metadata, the
directory holds exactly the aligned snapshot files, and reconciliation
recovers the sequence unchanged. -/
theorem reload_getEntries (s : ResourceState) (cfg : Nat)
    (hA : wfAligned s = true)
    (hidx : s.mem.dirty = true ∨ s.disk.index = IndexFile.ok (s.mem.entries.map toDesc)) :
    (getEntries cfg (restart (flushIfDirty s))).2 = capAt cfg s.mem.entries ∧
    (getEntries cfg (restart (flushIfDirty s))).1.disk.snapshots = s.disk.snapshots ∧
    (getEntries cfg (restart (flushIfDirty s))).1.mem.entries = s.mem.entries := by
  rcases wfAligned_parts s hA with ⟨halign, hdist, hsort⟩
  have hflush : (flushIfDirty s).disk.snapshots = s.disk.snapshots ∧
      (flushIfDirty s).disk.index = IndexFile.ok (s.mem.entries.map toDesc) := by
    rw [flushIfDirty]
    rcases hidx with hd | hi
    · rw [if_pos hd]
      exact ⟨rfl, rfl⟩
    · by_cases hd : s.mem.dirty = true
      · rw [if_pos hd]
        exact ⟨rfl, rfl⟩
      · rw [if_neg hd]
        exact ⟨rfl, hi⟩
  have hdisk2 : (flushIfDirty s).disk =
      { snapshots := s.disk.snapshots, index := IndexFile.ok (s.mem.entries.map toDesc) } := by
    rw [show (flushIfDirty s).disk =
      { snapshots := (flushIfDirty s).disk.snapshots, index := (flushIfDirty s).disk.index } from rfl,
      hflush.1, hflush.2]
  have hresolve : resolveFromDisk (restart (flushIfDirty s)).disk = s.mem.entries := by
    have hre : (restart (flushIfDirty s)).disk = (flushIfDirty s).disk := rfl
    rw [hre, hdisk2]
    simp only [resolveFromDisk]
    have hmap : s.disk.snapshots.map (entryOfSnapshot (s.mem.entries.map toDesc)) =
        s.mem.entries := by
      apply map_entryOfSnapshot_aligned
      · exact halign.symm
      · intro e he
        exact descFor_toDesc_self s.mem.entries e ((distinct_iff_nodup _).mp hdist) he
    rw [hmap]
    exact sortByTs_sorted_id _ hsort
  have hload : ensureLoaded (restart (flushIfDirty s)) =
      { restart (flushIfDirty s) with
        mem := { loaded := true, entries := s.mem.entries, dirty := false } } := by
    rw [ensureLoaded]
    rw [if_neg (by simp [restart] : ¬ ((restart (flushIfDirty s)).mem.loaded = true))]
    have hpend : (restart (flushIfDirty s)).mem.entries = [] := rfl
    simp only [hpend, hresolve, List.all_nil, List.filter_true, List.foldl_nil]
    rfl
  refine ⟨?_, ?_, ?_⟩
  · rw [getEntries]
    simp only [hload]
  · rw [getEntries]
    simp only [hload]
    exact hflush.1
  · rw [getEntries]
    simp only [hload]

/-! ## Shutdown eviction -/

theorem filter_take_drop :
    ∀ (k : Nat) (entries : List HistoryEntry) (snaps : List Snapshot),
    snaps.map (fun sn => sn.id) = idsOf entries →
    (idsOf entries).Nodup →
    snaps.filter (fun sn => (entries.take k).all (fun e => e.id ≠ sn.id)) = snaps.drop k := by
  intro k
  induction k with
  | zero =>
    intro entries snaps _ _
    simp
  | succ k ih =>
    intro entries snaps halign hnodup
    cases entries with
    | nil =>
      cases snaps with
      | nil => rfl
      | cons sn sns => simp [idsOf] at halign
    | cons e es =>
      cases snaps with
      | nil => simp [idsOf] at halign
      | cons sn sns =>
        simp only [idsOf, List.map_cons, List.cons.injEq] at halign
        rcases halign with ⟨hid, htail⟩
        have hnd : (List.map (fun x => x.id) (e :: es)).Nodup := hnodup
        rw [List.map_cons, List.nodup_cons] at hnd
        rcases hnd with ⟨hne, hnes⟩
        rw [List.take_succ_cons, List.drop_succ_cons]
        have hsn : ((e :: es.take k).all (fun y => y.id ≠ sn.id)) = false := by
          rw [List.all_cons]
          simp [hid]
        rw [List.filter_cons_of_neg (by rw [hsn]; simp), List.filter_congr]
        · exact ih es sns htail hnes
        · intro x hx
          have hxid : x.id ∈ idsOf es := by
            rw [idsOf, ← htail]
            exact List.mem_map_of_mem (fun y => y.id) hx
          have hneq : (decide (e.id ≠ x.id)) = true := by
            simp only [decide_eq_true_eq]
            intro hcontra
            exact hne (hcontra ▸ hxid)
          rw [List.all_cons, hneq, Bool.true_and]

/-- Closed form of eviction on a loaded, well-formed state whose entry
count exceeds the limit: the oldest entries and their aligned snapshot
files are dropped together. -/
theorem evict_eq (cfg : Nat) (s : ResourceState)
    (hl : s.mem.loaded = true) (hA : wfAligned s = true)
    (h : cfg < s.mem.entries.length) :
    evictToLimit cfg s =
      { s with
        disk := { s.disk with snapshots := s.disk.snapshots.drop (s.mem.entries.length - cfg) }
        mem := { s.mem with entries := s.mem.entries.drop (s.mem.entries.length - cfg), dirty := true } } := by
  rcases wfAligned_parts s hA with ⟨halign, hdist, _⟩
  rw [evictToLimit]
  simp only [ensureLoaded_of_loaded s hl]
  rw [if_neg (by omega)]
  rw [filter_take_drop (s.mem.entries.length - cfg) s.mem.entries s.disk.snapshots
    halign.symm ((distinct_iff_nodup _).mp hdist)]

/-- Well-formedness survives dropping the oldest `k` entries together
with their aligned snapshot files. -/
theorem wfAligned_drop (s : ResourceState) (k : Nat) (hA : wfAligned s = true) :
    wfAligned
      { s with
        disk := { s.disk with snapshots := s.disk.snapshots.drop k }
        mem := { s.mem with entries := s.mem.entries.drop k, dirty := true } } = true := by
  rcases wfAligned_parts s hA with ⟨halign, hdist, hsort⟩
  rw [wfAligned, Bool.and_eq_true, Bool.and_eq_true]
  refine ⟨⟨?_, ?_⟩, ?_⟩
  · simp only [idsOf, List.map_drop]
    rw [show List.map (fun e => e.id) s.mem.entries = idsOf s.mem.entries from rfl, halign]
    simp
  · show distinct (idsOf (s.mem.entries.drop k)) = true
    apply (distinct_iff_nodup _).mpr
    have heq : idsOf (s.mem.entries.drop k) = (idsOf s.mem.entries).drop k := by
      simp [idsOf, List.map_drop]
    rw [heq]
    exact ((distinct_iff_nodup _).mp hdist).sublist (List.drop_sublist k _)
  · show sortedLe (tsOf (s.mem.entries.drop k)) = true
    apply (sortedTs_iff_pairwise _).mpr
    exact ((sortedTs_iff_pairwise _).mp hsort).sublist (List.drop_sublist k _)

theorem getEntries_of_loaded (cfg : Nat) (s : ResourceState) (hl : s.mem.loaded = true) :
    getEntries cfg s = (s, capAt cfg s.mem.entries) := by
  rw [getEntries]
  simp only [ensureLoaded_of_loaded s hl]

/-! ## Claim theorems -/

/-- The concrete two-shutdown scenario of the shutdown-cleanup test: four
entries, shutdown with limit 2, one more entry, shutdown with the raised
limit 3. -/
def c1FirstRun : ResourceState :=
  addMany [{ timestamp := 1, source := some "test-source", content := "c1" },
    { timestamp := 2, source := some "other-source", content := "c2" },
    { timestamp := 3, source := some "other-source", content := "c3" },
    { timestamp := 4, source := some "other-source", content := "c4" }] initState

def c1AfterFirstShutdown : ResourceState := shutdownResource 2 c1FirstRun

def c1SecondRun : ResourceState :=
  addMany [{ timestamp := 5, source := some "other-source", content := "c5" }]
    (restart c1AfterFirstShutdown)

def c1AfterSecondShutdown : ResourceState := shutdownResource 3 c1SecondRun

/-- C1: for every resource whose entry count exceeds the configured
`maxFileEntries` at the moment shutdown fires, after the shutdown eviction
exactly the newest `maxFileEntries` entries remain: on disk only their
snapshot files are left (every older entry's file no longer exists), and
`getEntries` after a restart — and any subsequent query — returns exactly
those entries. The configuration value is a parameter of each shutdown
invocation, read fresh: as the appended concrete two-shutdown scenario
shows, a raised limit at a later shutdown preserves more entries. -/
theorem shutdown_eviction_keeps_newest (s : ResourceState) (cfg : Nat)
    (hl : s.mem.loaded = true) (hA : wfAligned s = true)
    (hcount : cfg < s.mem.entries.length) :
    ((shutdownResource cfg s).disk.snapshots.map (fun sn => sn.id) =
      idsOf (s.mem.entries.drop (s.mem.entries.length - cfg))) ∧
    ((s.mem.entries.drop (s.mem.entries.length - cfg)).length = cfg) ∧
    (∀ e ∈ s.mem.entries.take (s.mem.entries.length - cfg),
      ∀ sn ∈ (shutdownResource cfg s).disk.snapshots, sn.id ≠ e.id) ∧
    ((getEntries cfg (restart (shutdownResource cfg s))).2 =
      s.mem.entries.drop (s.mem.entries.length - cfg)) ∧
    ((getEntries cfg ((getEntries cfg (restart (shutdownResource cfg s))).1)).2 =
      s.mem.entries.drop (s.mem.entries.length - cfg)) ∧
    (c1AfterFirstShutdown.disk.snapshots.map (fun sn => sn.id) = [2, 3] ∧
      c1AfterSecondShutdown.disk.snapshots.map (fun sn => sn.id) = [2, 3, 4] ∧
      idsOf (getEntries 3 (restart c1AfterSecondShutdown)).2 = [2, 3, 4] ∧
      tsOf (getEntries 3 (restart c1AfterSecondShutdown)).2 = [3, 4, 5]) := by
  rcases wfAligned_parts s hA with ⟨halign, hdist, hsort⟩
  have hev := evict_eq cfg s hl hA hcount
  have hshut : shutdownResource cfg s = flushIfDirty (evictToLimit cfg s) := rfl
  have hkeptlen : (s.mem.entries.drop (s.mem.entries.length - cfg)).length = cfg := by
    rw [List.length_drop]; omega
  have hcap : capAt cfg (s.mem.entries.drop (s.mem.entries.length - cfg)) =
      s.mem.entries.drop (s.mem.entries.length - cfg) := by
    rw [capAt, hkeptlen, if_neg (Nat.lt_irrefl cfg)]
  have hsnap : (shutdownResource cfg s).disk.snapshots =
      s.disk.snapshots.drop (s.mem.entries.length - cfg) := by
    rw [hshut, hev]
    rfl
  have hwfE := wfAligned_drop s (s.mem.entries.length - cfg) hA
  have hreload := reload_getEntries
    { s with
      disk := { s.disk with snapshots := s.disk.snapshots.drop (s.mem.entries.length - cfg) }
      mem := { s.mem with entries := s.mem.entries.drop (s.mem.entries.length - cfg), dirty := true } }
    cfg hwfE (Or.inl rfl)
  have hsnapids : (s.disk.snapshots.drop (s.mem.entries.length - cfg)).map (fun sn => sn.id) =
      idsOf (s.mem.entries.drop (s.mem.entries.length - cfg)) := by
    rw [List.map_drop, ← halign, idsOf, idsOf, List.map_drop]
  refine ⟨?_, hkeptlen, ?_, ?_, ?_, by decide⟩
  · rw [hsnap]
    exact hsnapids
  · intro e he sn hsn heq
    have hnodup : (idsOf s.mem.entries).Nodup := (distinct_iff_nodup _).mp hdist
    rw [← List.take_append_drop (s.mem.entries.length - cfg) (idsOf s.mem.entries)] at hnodup
    rcases List.nodup_append.mp hnodup with ⟨_, _, hdisj⟩
    have hmemtake : e.id ∈ (idsOf s.mem.entries).take (s.mem.entries.length - cfg) := by
      rw [idsOf, ← List.map_take]
      exact List.mem_map_of_mem (fun y => y.id) he
    have hmemdrop : e.id ∈ (idsOf s.mem.entries).drop (s.mem.entries.length - cfg) := by
      rw [hsnap] at hsn
      have h2 : sn.id ∈ (s.disk.snapshots.drop (s.mem.entries.length - cfg)).map (fun x => x.id) :=
        List.mem_map_of_mem (fun x => x.id) hsn
      rw [hsnapids] at h2
      have h3 : idsOf (s.mem.entries.drop (s.mem.entries.length - cfg)) =
          (idsOf s.mem.entries).drop (s.mem.entries.length - cfg) := by
        simp [idsOf, List.map_drop]
      rw [h3] at h2
      exact heq ▸ h2
    exact hdisj hmemtake hmemdrop
  · rw [hshut, hev]
    rw [hreload.1, hcap]
  · rw [hshut, hev]
    have hpost : ((getEntries cfg (restart (flushIfDirty
        { s with
          disk := { s.disk with snapshots := s.disk.snapshots.drop (s.mem.entries.length - cfg) }
          mem := { s.mem with entries := s.mem.entries.drop (s.mem.entries.length - cfg), dirty := true } }))).1).mem.entries =
        s.mem.entries.drop (s.mem.entries.length - cfg) := hreload.2.2
    have hloaded : ((getEntries cfg (restart (flushIfDirty
        { s with
          disk := { s.disk with snapshots := s.disk.snapshots.drop (s.mem.entries.length - cfg) }
          mem := { s.mem with entries := s.mem.entries.drop (s.mem.entries.length - cfg), dirty := true } }))).1).mem.loaded = true := by
      rw [getEntries]
      exact ensureLoaded_loaded _
    rw [getEntries_of_loaded _ _ hloaded, hpost, hcap]

theorem shutdown_eviction_keeps_newest_witness :
    2 < (ensureLoaded c1FirstRun).mem.entries.length ∧
    (getEntries 2 (restart (shutdownResource 2 (ensureLoaded c1FirstRun)))).2 =
      (ensureLoaded c1FirstRun).mem.entries.drop
        ((ensureLoaded c1FirstRun).mem.entries.length - 2) :=
  ⟨by decide, (shutdown_eviction_keeps_newest (ensureLoaded c1FirstRun) 2
    (by decide) (by decide) (by decide)).2.2.2.1⟩

/-- Well-formedness of the state reached by a run of successful
`addEntry` calls with strictly increasing timestamps on a fresh
resource. -/
theorem wfAligned_addMany_init (rs : List AddReq)
    (h : sortedLe (rs.map AddReq.timestamp) = true) :
    wfAligned (addMany rs initState) = true := by
  rw [addMany_eq rs initState (by simpa [initState, tsOf] using h)]
  rw [wfAligned, Bool.and_eq_true, Bool.and_eq_true]
  refine ⟨⟨?_, ?_⟩, ?_⟩
  · simp only [initState, List.nil_append, beq_iff_eq]
    rw [builtEntries_ids, builtSnaps_ids]
  · simp only [initState, List.nil_append]
    exact (distinct_iff_nodup _).mpr (builtEntries_ids_nodup 0 rs)
  · simp only [initState, List.nil_append]
    rw [builtEntries_ts]
    exact h

/-- C2: a run of successful `addEntry` calls with strictly increasing
caller-supplied timestamps, followed by a flush of the metadata index and
a reload in a fresh service instance, yields the same `getEntries` answer
— same ids, timestamps and source labels in the same order — and leaves
every snapshot file (hence every entry's location and content)
untouched. -/
theorem round_trip_after_flush_reload (rs : List AddReq) (cfg : Nat)
    (h : sortedLt (rs.map AddReq.timestamp) = true) :
    ((getEntries cfg (restart (flushIfDirty (addMany rs initState)))).2 =
      (getEntries cfg (addMany rs initState)).2) ∧
    ((getEntries cfg (addMany rs initState)).2 = capAt cfg (builtEntries 0 rs)) ∧
    ((getEntries cfg (restart (flushIfDirty (addMany rs initState)))).1.disk.snapshots =
      (addMany rs initState).disk.snapshots) := by
  have hle := sortedLt_imp_sortedLe _ h
  have hloadA := ensureLoaded_addMany_init rs hle
  have hsideA : (getEntries cfg (addMany rs initState)).2 = capAt cfg (builtEntries 0 rs) := by
    rw [getEntries, hloadA]
  have hmem : (addMany rs initState).mem.entries = builtEntries 0 rs := by
    rw [addMany_eq rs initState (by simpa [initState, tsOf] using hle)]
    simp [initState]
  cases rs with
  | nil =>
    have hmem0 : (ensureLoaded initState).mem.entries = [] := by decide
    refine ⟨rfl, ?_, rfl⟩
    show (getEntries cfg initState).2 = capAt cfg (builtEntries 0 [])
    rw [getEntries, hmem0]
    rfl
  | cons r rest =>
    have hA := wfAligned_addMany_init (r :: rest) hle
    have hdirty : (addMany (r :: rest) initState).mem.dirty = true := by
      rw [addMany_eq (r :: rest) initState (by simpa [initState, tsOf] using hle)]
      simp [initState]
    have hreload := reload_getEntries (addMany (r :: rest) initState) cfg hA (Or.inl hdirty)
    refine ⟨?_, hsideA, hreload.2.1⟩
    rw [hreload.1, hmem, hsideA]

theorem round_trip_after_flush_reload_witness :
    sortedLt ([{ timestamp := 1, source := some "test-source", content := "f1" },
      { timestamp := 2, source := none, content := "f2" },
      { timestamp := 3, source := some "other-source", content := "f3" }].map AddReq.timestamp) = true ∧
    (getEntries 10 (restart (flushIfDirty (addMany
      [{ timestamp := 1, source := some "test-source", content := "f1" },
        { timestamp := 2, source := none, content := "f2" },
        { timestamp := 3, source := some "other-source", content := "f3" }] initState)))).2 =
      (getEntries 10 (addMany
        [{ timestamp := 1, source := some "test-source", content := "f1" },
          { timestamp := 2, source := none, content := "f2" },
          { timestamp := 3, source := some "other-source", content := "f3" }] initState)).2 :=
  ⟨by decide, (round_trip_after_flush_reload _ 10 (by decide)).1⟩

/-- A loaded four-entry session state used by the query-cap claims
(mirrors the four `addEntry` calls of the max-entries test). -/
def cappedRun : ResourceState :=
  ensureLoaded (addMany [{ timestamp := 1, source := none, content := "g1" },
    { timestamp := 2, source := none, content := "g2" },
    { timestamp := 3, source := some "Test source", content := "g3" },
    { timestamp := 4, source := none, content := "g4" }] initState)

/-- C3, counterexample: with four entries and a configured maximum of 2,
`getEntries` returns 2 entries, not the full four-entry sequence — so
"getEntries always returns the full ordered sequence" and "the number of
entries returned may exceed the configured limit" both fail on the code
(the max-entries test asserts exactly this capped result). -/
theorem getEntries_not_full_sequence :
    (getEntries 2 cappedRun).2.length = 2 ∧
    cappedRun.mem.entries.length = 4 ∧
    (getEntries 2 cappedRun).2 ≠ cappedRun.mem.entries := by decide

/-- C3, amended: `getEntries` returns the ordered sequence capped at
query time to the newest `maxFileEntries` entries whenever the count
exceeds the freshly read limit (the full sequence otherwise); the excess
entries are never evicted by `addEntry` or by a query — the query leaves
the state untouched and `addEntry` only ever appends a snapshot file — so
during an active session the number of entries kept on disk may exceed
the configured limit even though a query never returns more than the
limit. -/
theorem getEntries_caps_never_evicts (s : ResourceState) (cfg : Nat)
    (hl : s.mem.loaded = true) :
    ((getEntries cfg s).1 = s) ∧
    ((getEntries cfg s).2 = capAt cfg s.mem.entries) ∧
    (cfg < s.mem.entries.length →
      (getEntries cfg s).2 = s.mem.entries.drop (s.mem.entries.length - cfg)) ∧
    (s.mem.entries.length ≤ cfg → (getEntries cfg s).2 = s.mem.entries) ∧
    (∀ (canc sup : Bool) (ts : Nat) (src : Option String) (cont : String),
      ∃ t, (addEntry canc sup ts src cont s).state.disk.snapshots = s.disk.snapshots ++ t) ∧
    (cappedRun.disk.snapshots.length = 4 ∧ (getEntries 2 cappedRun).2.length = 2) := by
  have hget := getEntries_of_loaded cfg s hl
  refine ⟨by rw [hget], by rw [hget], ?_, ?_, ?_, by decide⟩
  · intro hcap
    rw [hget]
    show capAt cfg s.mem.entries = _
    rw [capAt, if_pos hcap]
  · intro hbig
    rw [hget]
    show capAt cfg s.mem.entries = _
    rw [capAt, if_neg (by omega)]
  · intro canc sup ts src cont
    cases canc with
    | true => exact ⟨[], by simp [addEntry]⟩
    | false =>
      cases sup with
      | false => exact ⟨[], by simp [addEntry]⟩
      | true =>
        exact ⟨[{ id := s.nextId, content := cont, mtime := s.fsClock }], by simp [addEntry]⟩

theorem getEntries_caps_never_evicts_witness :
    cappedRun.mem.loaded = true ∧ (getEntries 2 cappedRun).1 = cappedRun :=
  ⟨by decide, (getEntries_caps_never_evicts cappedRun 2 (by decide)).1⟩

/-- C10: when the configured maximum is below the entry count, a query
returns exactly the newest `maxFileEntries` entries (every hidden older
entry is at most as new as every returned one), the query deletes and
changes nothing, and a later query with a raised limit returns the full
sequence again, unchanged. -/
theorem query_cap_hides_without_deleting (s : ResourceState) (cfg cfg2 : Nat)
    (hl : s.mem.loaded = true) (hsort : sortedLe (tsOf s.mem.entries) = true)
    (hcap : cfg < s.mem.entries.length) (hbig : s.mem.entries.length ≤ cfg2) :
    ((getEntries cfg s).2 = s.mem.entries.drop (s.mem.entries.length - cfg)) ∧
    ((getEntries cfg s).2.length = cfg) ∧
    ((getEntries cfg s).1 = s) ∧
    (∀ e ∈ s.mem.entries.take (s.mem.entries.length - cfg),
      ∀ x ∈ (getEntries cfg s).2, e.timestamp ≤ x.timestamp) ∧
    ((getEntries cfg2 s).2 = s.mem.entries) := by
  have hget := getEntries_of_loaded cfg s hl
  have hdropped : (getEntries cfg s).2 = s.mem.entries.drop (s.mem.entries.length - cfg) := by
    rw [hget]
    show capAt cfg s.mem.entries = _
    rw [capAt, if_pos hcap]
  refine ⟨hdropped, ?_, by rw [hget], ?_, ?_⟩
  · rw [hdropped, List.length_drop]
    omega
  · intro e he x hx
    rw [hdropped] at hx
    have hp := (sortedTs_iff_pairwise _).mp hsort
    rw [← List.take_append_drop (s.mem.entries.length - cfg) s.mem.entries] at hp
    exact (List.pairwise_append.mp hp).2.2 e he x hx
  · rw [getEntries_of_loaded cfg2 s hl]
    show capAt cfg2 s.mem.entries = _
    rw [capAt, if_neg (by omega)]

theorem query_cap_hides_without_deleting_witness :
    (2 < cappedRun.mem.entries.length ∧ cappedRun.mem.entries.length ≤ 5) ∧
    (getEntries 5 cappedRun).2 = cappedRun.mem.entries :=
  ⟨by decide, (query_cap_hides_without_deleting cappedRun 2 5
    (by decide) (by decide) (by decide) (by decide)).2.2.2.2⟩

/-- C5: for an entry present in a resource's history, `removeEntry`
returns true exactly once: the first call deletes the snapshot file and
the descriptor and returns true; a second call with the same entry
returns false and is a complete no-op (state, and hence entry count,
unchanged). -/
theorem removeEntry_true_exactly_once (s : ResourceState) (id : Nat)
    (h : id ∈ idsOf (ensureLoaded s).mem.entries) :
    ((removeEntry id s).2.1 = true) ∧
    (∀ sn ∈ (removeEntry id s).1.disk.snapshots, sn.id ≠ id) ∧
    (id ∉ idsOf (removeEntry id s).1.mem.entries) ∧
    (removeEntry id (removeEntry id s).1 = ((removeEntry id s).1, false, [])) := by
  have hfind : ((ensureLoaded s).mem.entries.find? (fun e => e.id = id)).isSome := by
    rw [List.find?_isSome]
    rcases List.mem_map.mp h with ⟨e, he, heid⟩
    exact ⟨e, he, by simp [heid]⟩
  rcases Option.isSome_iff_exists.mp hfind with ⟨e, hfe⟩
  have hred : removeEntry id s =
      ({ ensureLoaded s with
         disk := { (ensureLoaded s).disk with
           snapshots := (ensureLoaded s).disk.snapshots.filter (fun sn => sn.id ≠ id) }
         mem := { (ensureLoaded s).mem with
           entries := (ensureLoaded s).mem.entries.filter (fun x => x.id ≠ id)
           dirty := true } },
       true, [Event.removed e]) := by
    rw [removeEntry, hfe]
  have hmem1 : (removeEntry id s).1.mem.entries =
      (ensureLoaded s).mem.entries.filter (fun x => x.id ≠ id) := by
    rw [hred]
  have hsnaps1 : (removeEntry id s).1.disk.snapshots =
      (ensureLoaded s).disk.snapshots.filter (fun sn => sn.id ≠ id) := by
    rw [hred]
  refine ⟨by rw [hred], ?_, ?_, ?_⟩
  · intro sn hsn
    rw [hsnaps1] at hsn
    have := List.of_mem_filter hsn
    simpa using this
  · intro hcontra
    rw [hmem1] at hcontra
    rcases List.mem_map.mp hcontra with ⟨x, hx, hxid⟩
    have := List.of_mem_filter hx
    rw [hxid] at this
    simp at this
  · have hloaded1 : (removeEntry id s).1.mem.loaded = true := by
      rw [hred]
      show (ensureLoaded s).mem.loaded = true
      exact ensureLoaded_loaded s
    have hnone : ((removeEntry id s).1.mem.entries.find? (fun e => e.id = id)) = none := by
      rw [List.find?_eq_none]
      intro x hx
      rw [hmem1] at hx
      have := List.of_mem_filter hx
      simpa using this
    rw [removeEntry, ensureLoaded_of_loaded _ hloaded1, hnone]

theorem removeEntry_true_exactly_once_witness :
    1 ∈ idsOf (ensureLoaded cappedRun).mem.entries ∧
    (removeEntry 1 cappedRun).2.1 = true :=
  ⟨by decide, (removeEntry_true_exactly_once cappedRun 1 (by decide)).1⟩

/-- C8: `addEntry` returns no entry, and fires no "entry added" event, in
exactly the two negative cases: a cancellation signal already triggered
at admission (the whole state is unchanged, so no I/O was performed), and
an unsupported resource (again the state is unchanged and no error is
raised); in the remaining case the entry is created and exactly one
"entry added" event carrying it is fired. -/
theorem addEntry_negative_cases (s : ResourceState) (sup : Bool) (ts : Nat)
    (src : Option String) (cont : String) :
    (addEntry true sup ts src cont s = ⟨s, none, []⟩) ∧
    (addEntry false false ts src cont s = ⟨s, none, []⟩) ∧
    ((addEntry false true ts src cont s).entry =
      some { id := s.nextId, timestamp := ts, source := src }) ∧
    ((addEntry false true ts src cont s).events =
      [Event.added { id := s.nextId, timestamp := ts, source := src }]) :=
  ⟨rfl, rfl, rfl, rfl⟩

theorem find?_unique_id (l : List HistoryEntry) (e : HistoryEntry)
    (hd : (idsOf l).Nodup) (he : e ∈ l) :
    l.find? (fun x => x.id = e.id) = some e := by
  induction l with
  | nil => cases he
  | cons x xs ih =>
    have hd2 : (List.map (fun y => y.id) (x :: xs)).Nodup := hd
    rw [List.map_cons, List.nodup_cons] at hd2
    rcases hd2 with ⟨hx, hxs⟩
    rcases List.mem_cons.mp he with h | h
    · subst h
      simp [List.find?]
    · have hne : x.id ≠ e.id := by
        intro hc
        exact hx (hc ▸ List.mem_map_of_mem (fun y => y.id) h)
      rw [List.find?_cons_of_neg _ (by simp [hne])]
      exact ih hxs h

/-- C9: `updateEntry` mutates the source label of an existing entry in
place — every entry keeps its id and timestamp, the disk (snapshot files
and their contents) is untouched, entries with other ids are unchanged —
fires exactly one "entry changed" event carrying the updated entry, and
after a flush and a reload in a fresh service instance `getEntries` still
returns the updated sequence, including the entry with its new source
label. -/
theorem updateEntry_in_place (s : ResourceState) (e : HistoryEntry)
    (newSrc : Option String) (cfg : Nat)
    (hl : s.mem.loaded = true) (hA : wfAligned s = true)
    (he : e ∈ s.mem.entries) (hcfg : s.mem.entries.length ≤ cfg) :
    (idsOf (updateEntry e.id newSrc s).1.mem.entries = idsOf s.mem.entries) ∧
    (tsOf (updateEntry e.id newSrc s).1.mem.entries = tsOf s.mem.entries) ∧
    ((updateEntry e.id newSrc s).1.disk = s.disk) ∧
    (∀ x ∈ (updateEntry e.id newSrc s).1.mem.entries, x.id = e.id → x.source = newSrc) ∧
    (∀ x ∈ s.mem.entries, x.id ≠ e.id → x ∈ (updateEntry e.id newSrc s).1.mem.entries) ∧
    ((updateEntry e.id newSrc s).2 = [Event.changed { e with source := newSrc }]) ∧
    ((getEntries cfg (restart (flushIfDirty (updateEntry e.id newSrc s).1))).2 =
      (updateEntry e.id newSrc s).1.mem.entries) ∧
    ({ e with source := newSrc } ∈
      (getEntries cfg (restart (flushIfDirty (updateEntry e.id newSrc s).1))).2) := by
  rcases wfAligned_parts s hA with ⟨halign, hdist, hsort⟩
  have hfind : s.mem.entries.find? (fun x => x.id = e.id) = some e :=
    find?_unique_id s.mem.entries e ((distinct_iff_nodup _).mp hdist) he
  have hred : updateEntry e.id newSrc s =
      ({ s with mem := { s.mem with
           entries := s.mem.entries.map
             (fun x => if x.id = e.id then { x with source := newSrc } else x)
           dirty := true } },
       [Event.changed { e with source := newSrc }]) := by
    rw [updateEntry, ensureLoaded_of_loaded _ hl, hfind]
  have hmem1 : (updateEntry e.id newSrc s).1.mem.entries =
      s.mem.entries.map (fun x => if x.id = e.id then { x with source := newSrc } else x) := by
    rw [hred]
  have hids : idsOf (updateEntry e.id newSrc s).1.mem.entries = idsOf s.mem.entries := by
    rw [hmem1, idsOf, idsOf, List.map_map]
    apply List.map_congr_left
    intro x _
    by_cases hx : x.id = e.id <;> simp [hx]
  have hts : tsOf (updateEntry e.id newSrc s).1.mem.entries = tsOf s.mem.entries := by
    rw [hmem1, tsOf, tsOf, List.map_map]
    apply List.map_congr_left
    intro x _
    by_cases hx : x.id = e.id <;> simp [hx]
  have hdisk : (updateEntry e.id newSrc s).1.disk = s.disk := by
    rw [hred]
  have hwf1 : wfAligned (updateEntry e.id newSrc s).1 = true := by
    rw [wfAligned, Bool.and_eq_true, Bool.and_eq_true]
    refine ⟨⟨?_, ?_⟩, ?_⟩
    · rw [beq_iff_eq, hids, hdisk]
      exact halign
    · rw [hids]
      exact hdist
    · rw [hts]
      exact hsort
  have hdirty1 : (updateEntry e.id newSrc s).1.mem.dirty = true := by
    rw [hred]
  have hreload := reload_getEntries (updateEntry e.id newSrc s).1 cfg hwf1 (Or.inl hdirty1)
  have hlen1 : (updateEntry e.id newSrc s).1.mem.entries.length = s.mem.entries.length := by
    rw [hmem1, List.length_map]
  have hcap1 : capAt cfg (updateEntry e.id newSrc s).1.mem.entries =
      (updateEntry e.id newSrc s).1.mem.entries := by
    rw [capAt, if_neg (by omega)]
  have hpersist : (getEntries cfg (restart (flushIfDirty (updateEntry e.id newSrc s).1))).2 =
      (updateEntry e.id newSrc s).1.mem.entries := by
    rw [hreload.1, hcap1]
  refine ⟨hids, hts, hdisk, ?_, ?_, by rw [hred], hpersist, ?_⟩
  · intro x hx hxid
    rw [hmem1] at hx
    rcases List.mem_map.mp hx with ⟨y, _, hyx⟩
    by_cases hy : y.id = e.id
    · rw [if_pos hy] at hyx
      rw [← hyx]
    · rw [if_neg hy] at hyx
      exact absurd (hyx ▸ hxid) hy
  · intro x hx hxid
    rw [hmem1]
    have : (if x.id = e.id then { x with source := newSrc } else x) = x := if_neg hxid
    rw [← this]
    exact List.mem_map_of_mem _ hx
  · rw [hpersist, hmem1]
    have : ({ e with source := newSrc } : HistoryEntry) =
        (if e.id = e.id then { e with source := newSrc } else e) := by simp
    rw [this]
    exact List.mem_map_of_mem _ he

theorem updateEntry_in_place_witness :
    ({ id := 0, timestamp := 1, source := none } : HistoryEntry) ∈ cappedRun.mem.entries ∧
    (updateEntry 0 (some "Hello Rename") cappedRun).2 =
      [Event.changed { id := 0, timestamp := 1, source := some "Hello Rename" }] :=
  ⟨by decide, (updateEntry_in_place cappedRun { id := 0, timestamp := 1, source := none }
    (some "Hello Rename") 10 (by decide) (by decide) (by decide) (by decide)).2.2.2.2.2.1⟩

/-! ## Tampering with the persisted state (crash/corruption scenarios) -/

/-- Delete or corrupt the metadata index file of a resource directory
(models `unlinkSync(entries.json)` or writing garbage into it). -/
def tamperIndex (idx : IndexFile) (s : ResourceState) : ResourceState :=
  { s with disk := { s.disk with index := idx } }

/-- Delete one snapshot file from a resource directory (models
`unlinkSync` of an entry's location). -/
def deleteSnapshot (id : Nat) (s : ResourceState) : ResourceState :=
  { s with disk := { s.disk with
    snapshots := s.disk.snapshots.filter (fun sn => sn.id ≠ id) } }

theorem builtEntries_length (n : Nat) (rs : List AddReq) :
    (builtEntries n rs).length = rs.length := by
  induction rs generalizing n with
  | nil => rfl
  | cons r rest ih => simp [builtEntries, ih]

theorem builtSnaps_length (n c : Nat) (rs : List AddReq) :
    (builtSnaps n c rs).length = rs.length := by
  induction rs generalizing n c with
  | nil => rfl
  | cons r rest ih => simp [builtSnaps, ih]

theorem flushIfDirty_snapshots (s : ResourceState) :
    (flushIfDirty s).disk.snapshots = s.disk.snapshots := by
  rw [flushIfDirty]
  by_cases h : s.mem.dirty = true <;> simp [h]

theorem evict_noop (m : Nat) (s : ResourceState)
    (h : (ensureLoaded s).mem.entries.length ≤ m) :
    evictToLimit m s = ensureLoaded s := by
  rw [evictToLimit, if_pos h]

theorem entryOfSnapshot_id (descs : List Descriptor) (sn : Snapshot) :
    (entryOfSnapshot descs sn).id = sn.id := by
  rw [entryOfSnapshot]
  cases h : descFor descs sn.id <;> simp

theorem map_filter_comm (f : Snapshot → HistoryEntry)
    (hf : ∀ sn, (f sn).id = sn.id) (j : Nat) :
    ∀ l : List Snapshot,
    (l.filter (fun sn => sn.id ≠ j)).map f = (l.map f).filter (fun e => e.id ≠ j) := by
  intro l
  induction l with
  | nil => rfl
  | cons sn sns ih =>
    by_cases h : sn.id = j
    · rw [List.filter_cons_of_neg (by simp [h]), List.map_cons,
        List.filter_cons_of_neg (by simp [hf sn, h])]
      exact ih
    · rw [List.filter_cons_of_pos (by simp [h]), List.map_cons, List.map_cons,
        List.filter_cons_of_pos (by simp [hf sn, h])]
      rw [ih]

/-- C6: if the metadata index file is deleted (or corrupted) after
entries were persisted, `getEntries` in a fresh service instance does not
fail: the directory-scan fallback still returns one entry per surviving
snapshot file, with the same ids in the same order, and no snapshot file
(location/content) is touched — only the recorded timestamps and source
labels of the reconstructed entries are lost. -/
theorem corrupt_index_scan_fallback (rs : List AddReq) (cfg : Nat) (idx : IndexFile)
    (h : sortedLt (rs.map AddReq.timestamp) = true)
    (hcfg : rs.length ≤ cfg)
    (hidx : idx = IndexFile.missing ∨ idx = IndexFile.corrupt) :
    (idsOf (getEntries cfg (restart (tamperIndex idx
        (shutdownResource cfg (addMany rs initState))))).2 =
      idsOf (builtEntries 0 rs)) ∧
    ((getEntries cfg (restart (tamperIndex idx
        (shutdownResource cfg (addMany rs initState))))).1.disk.snapshots =
      (addMany rs initState).disk.snapshots) ∧
    ((getEntries cfg (restart (tamperIndex idx
        (shutdownResource cfg (addMany rs initState))))).2.length = rs.length) := by
  have hle := sortedLt_imp_sortedLe _ h
  have hT := ensureLoaded_addMany_init rs hle
  have hlenT : (ensureLoaded (addMany rs initState)).mem.entries.length = rs.length := by
    rw [hT]
    simp [builtEntries_length]
  have hevict : evictToLimit cfg (addMany rs initState) = ensureLoaded (addMany rs initState) :=
    evict_noop cfg _ (by rw [hlenT]; exact hcfg)
  have hs1snaps : (shutdownResource cfg (addMany rs initState)).disk.snapshots =
      builtSnaps 0 0 rs := by
    rw [shutdownResource, hevict, flushIfDirty_snapshots, hT]
  have hs2disk : (restart (tamperIndex idx (shutdownResource cfg (addMany rs initState)))).disk =
      { snapshots := builtSnaps 0 0 rs, index := idx } := by
    show (tamperIndex idx (shutdownResource cfg (addMany rs initState))).disk = _
    rw [show (tamperIndex idx (shutdownResource cfg (addMany rs initState))).disk =
      { snapshots := (tamperIndex idx (shutdownResource cfg (addMany rs initState))).disk.snapshots,
        index := (tamperIndex idx (shutdownResource cfg (addMany rs initState))).disk.index } from rfl]
    rw [show (tamperIndex idx (shutdownResource cfg (addMany rs initState))).disk.snapshots =
      (shutdownResource cfg (addMany rs initState)).disk.snapshots from rfl]
    rw [show (tamperIndex idx (shutdownResource cfg (addMany rs initState))).disk.index = idx from rfl]
    rw [hs1snaps]
  have hresolve : resolveFromDisk
      ({ snapshots := builtSnaps 0 0 rs, index := idx } : DiskState) =
      (builtSnaps 0 0 rs).map scanEntry := by
    have hsorted : sortedLe (tsOf ((builtSnaps 0 0 rs).map scanEntry)) = true := by
      rw [scan_ts, builtSnaps_mtimes]
      exact sortedLt_imp_sortedLe _ (sortedLt_range' 0 rs.length)
    rcases hidx with h2 | h2 <;> subst h2 <;>
      simp only [resolveFromDisk] <;> exact sortByTs_sorted_id _ hsorted
  have hload2 : ensureLoaded (restart (tamperIndex idx
      (shutdownResource cfg (addMany rs initState)))) =
      { restart (tamperIndex idx (shutdownResource cfg (addMany rs initState))) with
        mem := { loaded := true, entries := (builtSnaps 0 0 rs).map scanEntry, dirty := false } } := by
    rw [ensureLoaded, if_neg (by simp [restart])]
    have hpend : (restart (tamperIndex idx
      (shutdownResource cfg (addMany rs initState)))).mem.entries = [] := rfl
    have hdiskeq : (restart (tamperIndex idx
        (shutdownResource cfg (addMany rs initState)))).disk =
        ({ snapshots := builtSnaps 0 0 rs, index := idx } : DiskState) := hs2disk
    simp only [hpend, hdiskeq, hresolve, List.all_nil, List.filter_true, List.foldl_nil]
    rfl
  have hcap2 : capAt cfg ((builtSnaps 0 0 rs).map scanEntry) =
      (builtSnaps 0 0 rs).map scanEntry := by
    rw [capAt, if_neg (by rw [List.length_map, builtSnaps_length]; omega)]
  have hget2 : (getEntries cfg (restart (tamperIndex idx
      (shutdownResource cfg (addMany rs initState))))).2 =
      (builtSnaps 0 0 rs).map scanEntry := by
    rw [getEntries]
    simp only [hload2]
    exact hcap2
  have haddsnaps : (addMany rs initState).disk.snapshots = builtSnaps 0 0 rs := by
    rw [addMany_eq rs initState (by simpa [initState, tsOf] using hle)]
    simp [initState]
  refine ⟨?_, ?_, ?_⟩
  · rw [hget2, scan_ids, builtSnaps_ids, builtEntries_ids]
  · rw [getEntries]
    simp only [hload2]
    show (restart (tamperIndex idx (shutdownResource cfg (addMany rs initState)))).disk.snapshots = _
    rw [hs2disk, haddsnaps]
  · rw [hget2, List.length_map, builtSnaps_length]

theorem corrupt_index_scan_fallback_witness :
    1 ≤ 5 ∧
    idsOf (getEntries 5 (restart (tamperIndex IndexFile.missing
        (shutdownResource 5 (addMany
          [{ timestamp := 1, source := none, content := "h1" }] initState))))).2 =
      idsOf (builtEntries 0 [{ timestamp := 1, source := none, content := "h1" }]) :=
  ⟨by decide, (corrupt_index_scan_fallback
    [{ timestamp := 1, source := none, content := "h1" }] 5 IndexFile.missing
    (by decide) (by decide) (Or.inl rfl)).1⟩

theorem flushIfDirty_dirty (s : ResourceState) (h : s.mem.dirty = true) :
    flushIfDirty s =
      { s with
        disk := { s.disk with index := IndexFile.ok (s.mem.entries.map toDesc) }
        mem := { s.mem with dirty := false } } := by
  rw [flushIfDirty, if_pos h]

/-- C7: deleting the snapshot file of one indexed entry does not make
`getEntries` fail in a fresh service instance: the entry whose file is
missing is silently dropped during reconciliation, and every remaining
entry is returned unchanged (same id, timestamp and source label, in the
same order), with the remaining snapshot files untouched. -/
theorem missing_snapshot_silently_dropped (rs : List AddReq) (cfg j : Nat)
    (h : sortedLt (rs.map AddReq.timestamp) = true)
    (hcfg : rs.length ≤ cfg)
    (hj : j < rs.length) :
    ((getEntries cfg (restart (deleteSnapshot j
        (shutdownResource cfg (addMany rs initState))))).2 =
      (builtEntries 0 rs).filter (fun e => e.id ≠ j)) ∧
    ((getEntries cfg (restart (deleteSnapshot j
        (shutdownResource cfg (addMany rs initState))))).1.disk.snapshots =
      (builtSnaps 0 0 rs).filter (fun sn => sn.id ≠ j)) := by
  have hle := sortedLt_imp_sortedLe _ h
  have hT := ensureLoaded_addMany_init rs hle
  have hlenT : (ensureLoaded (addMany rs initState)).mem.entries.length = rs.length := by
    rw [hT]
    simp [builtEntries_length]
  have hevict : evictToLimit cfg (addMany rs initState) = ensureLoaded (addMany rs initState) :=
    evict_noop cfg _ (by rw [hlenT]; exact hcfg)
  have hdirtyT : (ensureLoaded (addMany rs initState)).mem.dirty = true := by
    rw [hT]
    show (!rs.isEmpty) = true
    cases rs with
    | nil => exact absurd hj (by simp)
    | cons r rest => rfl
  have hs1 : shutdownResource cfg (addMany rs initState) =
      { disk := { snapshots := builtSnaps 0 0 rs
                  index := IndexFile.ok ((builtEntries 0 rs).map toDesc) }
        mem := { loaded := true, entries := builtEntries 0 rs, dirty := false }
        nextId := rs.length
        fsClock := rs.length } := by
    rw [shutdownResource, hevict, flushIfDirty_dirty _ hdirtyT, hT]
  have hfull : (builtSnaps 0 0 rs).map (entryOfSnapshot ((builtEntries 0 rs).map toDesc)) =
      builtEntries 0 rs := by
    apply map_entryOfSnapshot_aligned
    · rw [builtSnaps_ids, builtEntries_ids]
    · intro e he
      exact descFor_toDesc_self (builtEntries 0 rs) e (builtEntries_ids_nodup 0 rs) he
  have hmapfil : ((builtSnaps 0 0 rs).filter (fun sn => sn.id ≠ j)).map
      (entryOfSnapshot ((builtEntries 0 rs).map toDesc)) =
      (builtEntries 0 rs).filter (fun e => e.id ≠ j) := by
    rw [map_filter_comm (entryOfSnapshot ((builtEntries 0 rs).map toDesc))
      (entryOfSnapshot_id ((builtEntries 0 rs).map toDesc)) j, hfull]
  have hsortedfil : sortedLe (tsOf ((builtEntries 0 rs).filter (fun e => e.id ≠ j))) = true := by
    apply (sortedTs_iff_pairwise _).mpr
    apply List.Pairwise.filter
    apply (sortedTs_iff_pairwise _).mp
    rw [builtEntries_ts]
    exact hle
  have hresolve : resolveFromDisk
      ({ snapshots := (builtSnaps 0 0 rs).filter (fun sn => sn.id ≠ j)
         index := IndexFile.ok ((builtEntries 0 rs).map toDesc) } : DiskState) =
      (builtEntries 0 rs).filter (fun e => e.id ≠ j) := by
    simp only [resolveFromDisk]
    rw [hmapfil]
    exact sortByTs_sorted_id _ hsortedfil
  have hs2disk : (restart (deleteSnapshot j
      (shutdownResource cfg (addMany rs initState)))).disk =
      ({ snapshots := (builtSnaps 0 0 rs).filter (fun sn => sn.id ≠ j)
         index := IndexFile.ok ((builtEntries 0 rs).map toDesc) } : DiskState) := by
    rw [show (restart (deleteSnapshot j (shutdownResource cfg (addMany rs initState)))).disk =
      (deleteSnapshot j (shutdownResource cfg (addMany rs initState))).disk from rfl]
    rw [deleteSnapshot, hs1]
  have hload2 : ensureLoaded (restart (deleteSnapshot j
      (shutdownResource cfg (addMany rs initState)))) =
      { restart (deleteSnapshot j (shutdownResource cfg (addMany rs initState))) with
        mem := { loaded := true
                 entries := (builtEntries 0 rs).filter (fun e => e.id ≠ j)
                 dirty := false } } := by
    rw [ensureLoaded, if_neg (by simp [restart])]
    have hpend : (restart (deleteSnapshot j
      (shutdownResource cfg (addMany rs initState)))).mem.entries = [] := rfl
    simp only [hpend, hs2disk, hresolve, List.all_nil, List.filter_true, List.foldl_nil]
    rfl
  have hcap2 : capAt cfg ((builtEntries 0 rs).filter (fun e => e.id ≠ j)) =
      (builtEntries 0 rs).filter (fun e => e.id ≠ j) := by
    have hfl : ((builtEntries 0 rs).filter (fun e => e.id ≠ j)).length ≤ rs.length := by
      rw [← builtEntries_length 0 rs]
      exact List.length_filter_le _ _
    rw [capAt, if_neg (by omega)]
  refine ⟨?_, ?_⟩
  · rw [getEntries]
    simp only [hload2]
    exact hcap2
  · rw [getEntries]
    simp only [hload2]
    show (restart (deleteSnapshot j (shutdownResource cfg (addMany rs initState)))).disk.snapshots = _
    rw [hs2disk]

theorem missing_snapshot_silently_dropped_witness :
    0 < 2 ∧
    (getEntries 5 (restart (deleteSnapshot 0 (shutdownResource 5 (addMany
      [{ timestamp := 1, source := none, content := "k1" },
        { timestamp := 2, source := none, content := "k2" }] initState))))).2 =
      (builtEntries 0 [{ timestamp := 1, source := none, content := "k1" },
        { timestamp := 2, source := none, content := "k2" }]).filter (fun e => e.id ≠ 0) :=
  ⟨by decide, (missing_snapshot_silently_dropped
    [{ timestamp := 1, source := none, content := "k1" },
      { timestamp := 2, source := none, content := "k2" }] 5 0
    (by decide) (by decide) (by decide)).1⟩

/-! ## Merging a pending session into persisted entries -/

theorem ensureLoaded_not_loaded (s : ResourceState) (h : s.mem.loaded = false) :
    ensureLoaded s =
      { s with mem :=
          { loaded := true,
            entries := s.mem.entries.foldl (fun acc p => insertArriving p acc)
              ((resolveFromDisk s.disk).filter
                (fun e => s.mem.entries.all (fun p => p.id ≠ e.id))),
            dirty := s.mem.dirty } } := by
  rw [ensureLoaded, if_neg (by simp [h])]

theorem builtEntries_mem_id_bounds (n : Nat) (rs : List AddReq) (e : HistoryEntry)
    (he : e ∈ builtEntries n rs) : n ≤ e.id ∧ e.id < n + rs.length := by
  have : e.id ∈ idsOf (builtEntries n rs) := List.mem_map_of_mem (fun x => x.id) he
  rw [builtEntries_ids] at this
  exact (mem_range'_iff e.id n rs.length).mp this

theorem builtSnaps_mem_id_bounds (n c : Nat) (rs : List AddReq) (sn : Snapshot)
    (hsn : sn ∈ builtSnaps n c rs) : n ≤ sn.id ∧ sn.id < n + rs.length := by
  have : sn.id ∈ (builtSnaps n c rs).map (fun x => x.id) :=
    List.mem_map_of_mem (fun x => x.id) hsn
  rw [builtSnaps_ids] at this
  exact (mem_range'_iff sn.id n rs.length).mp this

theorem map_entryOfSnapshot_scan (descs : List Descriptor) (snaps : List Snapshot)
    (h : ∀ sn ∈ snaps, ∀ d ∈ descs, d.id ≠ sn.id) :
    snaps.map (entryOfSnapshot descs) = snaps.map scanEntry := by
  apply List.map_congr_left
  intro sn hsn
  rw [entryOfSnapshot, descFor_eq_none descs sn.id (fun d hd => h sn hsn d hd)]
  rfl

/-- The reconciliation core of the pending-buffer merge: with persisted
snapshot files split into indexed ones (whose reconciliation recovers
`entriesPS`) and files written by the pending session (absent from the
index, with ids covered by the pending buffer and disjoint from the
persisted entries), loading merges to a permutation of "persisted
entries followed by pending entries", in ascending timestamp order. -/
theorem merge_core (descsPS : List Descriptor) (snapsPS snapsQS : List Snapshot)
    (entriesPS pending : List HistoryEntry)
    (hfull : snapsPS.map (entryOfSnapshot descsPS) = entriesPS)
    (hscan : ∀ sn ∈ snapsQS, ∀ d ∈ descsPS, d.id ≠ sn.id)
    (hdis : ∀ e ∈ entriesPS, pending.all (fun p => p.id ≠ e.id) = true)
    (hcover : ∀ e ∈ snapsQS.map scanEntry, e.id ∈ idsOf pending) :
    ((pending.foldl (fun acc p => insertArriving p acc)
      ((resolveFromDisk { snapshots := snapsPS ++ snapsQS, index := IndexFile.ok descsPS }).filter
        (fun e => pending.all (fun p => p.id ≠ e.id)))).Perm (entriesPS ++ pending)) ∧
    ((pending.foldl (fun acc p => insertArriving p acc)
      ((resolveFromDisk { snapshots := snapsPS ++ snapsQS, index := IndexFile.ok descsPS }).filter
        (fun e => pending.all (fun p => p.id ≠ e.id)))).Pairwise tsLe) := by
  have hmix : (snapsPS ++ snapsQS).map (entryOfSnapshot descsPS) =
      entriesPS ++ snapsQS.map scanEntry := by
    rw [List.map_append, hfull, map_entryOfSnapshot_scan descsPS snapsQS hscan]
  have hresolve : resolveFromDisk
      ({ snapshots := snapsPS ++ snapsQS, index := IndexFile.ok descsPS } : DiskState) =
      sortByTs (entriesPS ++ snapsQS.map scanEntry) := by
    simp only [resolveFromDisk]
    rw [hmix]
  have hfilter_mixed : (entriesPS ++ snapsQS.map scanEntry).filter
      (fun e => pending.all (fun p => p.id ≠ e.id)) = entriesPS := by
    rw [List.filter_append, List.filter_eq_self.mpr hdis,
      List.filter_eq_nil_iff.mpr (fun e he => by
        rw [mem_idsOf_all_ne_false pending e.id (hcover e he)]
        simp),
      List.append_nil]
  have hkept_perm : ((sortByTs (entriesPS ++ snapsQS.map scanEntry)).filter
      (fun e => pending.all (fun p => p.id ≠ e.id))).Perm entriesPS := by
    have h1 := (sortByTs_perm (entriesPS ++ snapsQS.map scanEntry)).filter
      (fun e => pending.all (fun p => p.id ≠ e.id))
    rw [hfilter_mixed] at h1
    exact h1
  have hkept_sorted : ((sortByTs (entriesPS ++ snapsQS.map scanEntry)).filter
      (fun e => pending.all (fun p => p.id ≠ e.id))).Pairwise tsLe :=
    (sortByTs_pairwise _).filter _
  rw [hresolve]
  constructor
  · exact (foldl_insertArriving_perm pending _).trans (hkept_perm.append_right pending)
  · exact foldl_insertArriving_pairwise pending _ hkept_sorted

/-- C4: entries persisted before a flush-and-restart and entries added
after the restart (pending in memory) are merged by `getEntries` into one
sequence: the result is a permutation of "all persisted entries plus all
pending entries" (so no entry appears twice and none is lost), in
ascending timestamp order. -/
theorem merge_across_restart (ps qs : List AddReq) (cfg : Nat)
    (hp : sortedLt (ps.map AddReq.timestamp) = true)
    (hq : sortedLt (qs.map AddReq.timestamp) = true)
    (hcfg : ps.length + qs.length ≤ cfg) :
    ((getEntries cfg (addMany qs (restart (flushIfDirty (addMany ps initState))))).2.isPerm
      (builtEntries 0 ps ++ builtEntries ps.length qs) = true) ∧
    (sortedLe (tsOf
      (getEntries cfg (addMany qs (restart (flushIfDirty (addMany ps initState))))).2) = true) ∧
    (distinct (idsOf
      (getEntries cfg (addMany qs (restart (flushIfDirty (addMany ps initState))))).2) = true) := by
  have hqle := sortedLt_imp_sortedLe _ hq
  cases ps with
  | nil =>
    have h0 : restart (flushIfDirty (addMany [] initState)) = initState := by decide
    rw [h0]
    have hT := ensureLoaded_addMany_init qs hqle
    have hres : (getEntries cfg (addMany qs initState)).2 = builtEntries 0 qs := by
      rw [getEntries]
      simp only [hT]
      show capAt cfg (builtEntries 0 qs) = _
      rw [capAt, if_neg (by rw [builtEntries_length]; omega)]
    rw [hres]
    refine ⟨?_, ?_, ?_⟩
    · rw [List.isPerm_iff]
      show (builtEntries 0 qs).Perm (builtEntries 0 [] ++ builtEntries ([] : List AddReq).length qs)
      simp only [builtEntries, List.nil_append, List.length_nil]
      exact List.Perm.refl _
    · rw [builtEntries_ts]
      exact hqle
    · exact (distinct_iff_nodup _).mpr (builtEntries_ids_nodup 0 qs)
  | cons p ps' =>
    have hple := sortedLt_imp_sortedLe _ hp
    have hdirty : (addMany (p :: ps') initState).mem.dirty = true := by
      rw [addMany_eq (p :: ps') initState (by simpa [initState, tsOf] using hple)]
      simp [initState]
    have hs1 : flushIfDirty (addMany (p :: ps') initState) =
        { disk := { snapshots := builtSnaps 0 0 (p :: ps')
                    index := IndexFile.ok ((builtEntries 0 (p :: ps')).map toDesc) }
          mem := { loaded := false, entries := builtEntries 0 (p :: ps'), dirty := false }
          nextId := (p :: ps').length
          fsClock := (p :: ps').length } := by
      rw [flushIfDirty_dirty _ hdirty,
        addMany_eq (p :: ps') initState (by simpa [initState, tsOf] using hple)]
      simp [initState]
    have hs2 : addMany qs (restart (flushIfDirty (addMany (p :: ps') initState))) =
        { disk := { snapshots := builtSnaps 0 0 (p :: ps') ++ builtSnaps (p :: ps').length (p :: ps').length qs,
                    index := IndexFile.ok ((builtEntries 0 (p :: ps')).map toDesc) }
          mem := { loaded := false, entries := builtEntries (p :: ps').length qs,
                   dirty := !qs.isEmpty }
          nextId := (p :: ps').length + qs.length
          fsClock := (p :: ps').length + qs.length } := by
      rw [addMany_eq qs (restart (flushIfDirty (addMany (p :: ps') initState)))
        (by
          rw [show (restart (flushIfDirty (addMany (p :: ps') initState))).mem.entries = []
            from rfl]
          simpa [tsOf] using hqle),
        hs1]
      simp [restart]
    have hfull : (builtSnaps 0 0 (p :: ps')).map
        (entryOfSnapshot ((builtEntries 0 (p :: ps')).map toDesc)) =
        builtEntries 0 (p :: ps') := by
      apply map_entryOfSnapshot_aligned
      · rw [builtSnaps_ids, builtEntries_ids]
      · intro e he
        exact descFor_toDesc_self _ e (builtEntries_ids_nodup 0 (p :: ps')) he
    have hscan : ∀ sn ∈ builtSnaps (p :: ps').length (p :: ps').length qs,
        ∀ d ∈ (builtEntries 0 (p :: ps')).map toDesc, d.id ≠ sn.id := by
      intro sn hsn d hd
      rcases List.mem_map.mp hd with ⟨e, he, hde⟩
      have hbe := builtEntries_mem_id_bounds 0 (p :: ps') e he
      have hbs := builtSnaps_mem_id_bounds (p :: ps').length (p :: ps').length qs sn hsn
      have hdid : d.id = e.id := by rw [← hde]; rfl
      omega
    have hdis : ∀ e ∈ builtEntries 0 (p :: ps'),
        (builtEntries (p :: ps').length qs).all (fun x => x.id ≠ e.id) = true := by
      intro e he
      rw [List.all_eq_true]
      intro x hx
      have hbe := builtEntries_mem_id_bounds 0 (p :: ps') e he
      have hbx := builtEntries_mem_id_bounds (p :: ps').length qs x hx
      simp only [decide_eq_true_eq]
      omega
    have hcover : ∀ e ∈ (builtSnaps (p :: ps').length (p :: ps').length qs).map scanEntry,
        e.id ∈ idsOf (builtEntries (p :: ps').length qs) := by
      intro e he
      rcases List.mem_map.mp he with ⟨sn, hsn, hse⟩
      have hsid : e.id = sn.id := by rw [← hse]; rfl
      rw [builtEntries_ids, hsid]
      have := List.mem_map_of_mem (fun x => x.id) hsn
      rw [builtSnaps_ids] at this
      exact this
    have hcore := merge_core ((builtEntries 0 (p :: ps')).map toDesc)
      (builtSnaps 0 0 (p :: ps')) (builtSnaps (p :: ps').length (p :: ps').length qs)
      (builtEntries 0 (p :: ps')) (builtEntries (p :: ps').length qs)
      hfull hscan hdis hcover
    have hres : (getEntries cfg
        (addMany qs (restart (flushIfDirty (addMany (p :: ps') initState))))).2 =
        capAt cfg ((builtEntries (p :: ps').length qs).foldl
          (fun acc x => insertArriving x acc)
          ((resolveFromDisk
            { snapshots := builtSnaps 0 0 (p :: ps') ++
                builtSnaps (p :: ps').length (p :: ps').length qs
              index := IndexFile.ok ((builtEntries 0 (p :: ps')).map toDesc) }).filter
            (fun e => (builtEntries (p :: ps').length qs).all (fun x => x.id ≠ e.id)))) := by
      rw [hs2, getEntries, ensureLoaded_not_loaded _ rfl]
    have hlen : ((builtEntries (p :: ps').length qs).foldl
        (fun acc x => insertArriving x acc)
        ((resolveFromDisk
          { snapshots := builtSnaps 0 0 (p :: ps') ++
              builtSnaps (p :: ps').length (p :: ps').length qs
            index := IndexFile.ok ((builtEntries 0 (p :: ps')).map toDesc) }).filter
          (fun e => (builtEntries (p :: ps').length qs).all (fun x => x.id ≠ e.id)))).length =
        (p :: ps').length + qs.length := by
      rw [hcore.1.length_eq, List.length_append, builtEntries_length, builtEntries_length]
    have hcap : capAt cfg ((builtEntries (p :: ps').length qs).foldl
        (fun acc x => insertArriving x acc)
        ((resolveFromDisk
          { snapshots := builtSnaps 0 0 (p :: ps') ++
              builtSnaps (p :: ps').length (p :: ps').length qs
            index := IndexFile.ok ((builtEntries 0 (p :: ps')).map toDesc) }).filter
          (fun e => (builtEntries (p :: ps').length qs).all (fun x => x.id ≠ e.id)))) =
        (builtEntries (p :: ps').length qs).foldl
        (fun acc x => insertArriving x acc)
        ((resolveFromDisk
          { snapshots := builtSnaps 0 0 (p :: ps') ++
              builtSnaps (p :: ps').length (p :: ps').length qs
            index := IndexFile.ok ((builtEntries 0 (p :: ps')).map toDesc) }).filter
          (fun e => (builtEntries (p :: ps').length qs).all (fun x => x.id ≠ e.id))) := by
      rw [capAt, if_neg (by rw [hlen]; omega)]
    refine ⟨?_, ?_, ?_⟩
    · rw [hres, hcap, List.isPerm_iff]
      exact hcore.1
    · rw [hres, hcap]
      exact (sortedTs_iff_pairwise _).mpr hcore.2
    · rw [hres, hcap]
      apply (distinct_iff_nodup _).mpr
      have hpermIds := hcore.1.map (fun e => e.id)
      have hconcat : ((builtEntries 0 (p :: ps') ++
          builtEntries (p :: ps').length qs).map (fun e => e.id)).Nodup := by
        rw [List.map_append]
        rw [show List.map (fun e => e.id) (builtEntries 0 (p :: ps')) =
          idsOf (builtEntries 0 (p :: ps')) from rfl]
        rw [show List.map (fun e => e.id) (builtEntries (p :: ps').length qs) =
          idsOf (builtEntries (p :: ps').length qs) from rfl]
        rw [builtEntries_ids, builtEntries_ids]
        rw [List.nodup_append]
        refine ⟨range'_nodup _ _, range'_nodup _ _, ?_⟩
        intro a ha hb
        rw [mem_range'_iff] at ha hb
        omega
      exact hpermIds.symm.nodup hconcat

theorem merge_across_restart_witness :
    (2 + 2 ≤ 10) ∧
    (getEntries 10 (addMany
      [{ timestamp := 3, source := some "test-source", content := "m3" },
        { timestamp := 4, source := some "other-source", content := "m4" }]
      (restart (flushIfDirty (addMany
        [{ timestamp := 1, source := some "test-source", content := "m1" },
          { timestamp := 2, source := some "other-source", content := "m2" }]
        initState))))).2.isPerm
      (builtEntries 0
        [{ timestamp := 1, source := some "test-source", content := "m1" },
          { timestamp := 2, source := some "other-source", content := "m2" }] ++
        builtEntries 2
          [{ timestamp := 3, source := some "test-source", content := "m3" },
            { timestamp := 4, source := some "other-source", content := "m4" }]) = true :=
  ⟨by decide, (merge_across_restart
    [{ timestamp := 1, source := some "test-source", content := "m1" },
      { timestamp := 2, source := some "other-source", content := "m2" }]
    [{ timestamp := 3, source := some "test-source", content := "m3" },
      { timestamp := 4, source := some "other-source", content := "m4" }] 10
    (by decide) (by decide) (by decide)).1⟩
